import Mathlib

/-
Verification of src/assistant-prompts/tools.py: the version comparison
routine version_ge and the package inspector check_package_version.

Strings are modelled as lists of characters (String.toList); Python
exceptions are modelled by Option, with Option.none standing for an
exception escaping the function under consideration.
-/

namespace ShinyVersion

/-- Python whitespace characters (ASCII range) stripped by int() around the
digits of its argument. -/
def isPySpace (c : Char) : Bool :=
  c = ' ' || c = '\t' || c = '\n' || c = '\r' || c = '\x0b' || c = '\x0c'

/-- Strip leading and trailing whitespace, as int() does on its string
argument. -/
def pyStrip (l : List Char) : List Char :=
  ((l.dropWhile isPySpace).reverse.dropWhile isPySpace).reverse

/-- Numeric value of a list of decimal digits, most significant first. -/
def digitsVal (l : List Char) : Nat :=
  l.foldl (fun acc c => 10 * acc + (c.toNat - '0'.toNat)) 0

/-- Digit-group check for int(): every character is a decimal digit except
that single underscores may appear between two digits (never doubled and
never trailing; a leading underscore is rejected by the caller). -/
def digitsUnd : List Char → Bool
  | [] => true
  | [c] => c.isDigit
  | c1 :: c2 :: rest =>
    if c1 = '_' then c2.isDigit && digitsUnd (c2 :: rest)
    else c1.isDigit && digitsUnd (c2 :: rest)

/-- Unsigned digit parsing for int(): a nonempty string of decimal digits,
with underscores allowed between digits, evaluated after dropping the
underscores. -/
def pyDigits? : List Char → Option Nat
  | [] => none
  | c :: rest =>
    if c.isDigit && digitsUnd (c :: rest) then
      some (digitsVal ((c :: rest).filter (fun x => x != '_')))
    else
      none

/-- Model of Python int(x) on a string (ASCII digits): surrounding
whitespace is stripped, an optional sign precedes the digits, and
Option.none models the ValueError raised on anything else. -/
def pyInt? (l : List Char) : Option Int :=
  match pyStrip l with
  | '+' :: rest => (pyDigits? rest).map (fun n => (n : Int))
  | '-' :: rest => (pyDigits? rest).map (fun n => -(n : Int))
  | t => (pyDigits? t).map (fun n => (n : Int))

/-- Model of version1.split("+")[0]: the part of the string before the
first '+' character (the whole string when there is no '+'). -/
def beforePlus (l : List Char) : List Char :=
  l.takeWhile (fun c => c != '+')

/-- Model of v.replace(".dev", "."): scan left to right, replacing each
non-overlapping occurrence of ".dev" by "." and resuming after it. -/
def replaceDotDev : List Char → List Char
  | [] => []
  | [c] => [c]
  | [c1, c2] => [c1, c2]
  | [c1, c2, c3] => [c1, c2, c3]
  | c1 :: c2 :: c3 :: c4 :: rest =>
    if c1 = '.' ∧ c2 = 'd' ∧ c3 = 'e' ∧ c4 = 'v' then '.' :: replaceDotDev rest
    else c1 :: replaceDotDev (c2 :: c3 :: c4 :: rest)

/-- Model of v.replace("dev", "."): scan left to right, replacing each
non-overlapping occurrence of "dev" by "." and resuming after it. -/
def replaceDev : List Char → List Char
  | [] => []
  | [c] => [c]
  | [c1, c2] => [c1, c2]
  | c1 :: c2 :: c3 :: rest =>
    if c1 = 'd' ∧ c2 = 'e' ∧ c3 = 'v' then '.' :: replaceDev rest
    else c1 :: replaceDev (c2 :: c3 :: rest)

/-- Model of v.split("."): the dot-separated segments of the string,
keeping empty segments, with the empty string splitting to one empty
segment. -/
def splitOnDot : List Char → List (List Char)
  | [] => [[]]
  | c :: rest =>
    if c = '.' then [] :: splitOnDot rest
    else
      match splitOnDot rest with
      | [] => [[c]]
      | g :: gs => (c :: g) :: gs

/-- The inner helper split_version of version_ge: normalize the
development markers and split on dots. -/
def split_version (v : List Char) : List (List Char) :=
  splitOnDot (replaceDev (replaceDotDev v))

/-- The comprehension converting every segment with int(); the first
failing segment raises ValueError, modelled by Option.none. -/
def intParts : List (List Char) → Option (List Int)
  | [] => some []
  | s :: rest =>
    match pyInt? s, intParts rest with
    | some n, some ns => some (n :: ns)
    | _, _ => none

/-- The integer parts of a version string as computed inside version_ge:
truncate at the first '+', normalize the dev markers, split on dots and
convert each segment with int(). -/
def parseParts (v : String) : Option (List Int) :=
  intParts (split_version (beforePlus v.toList))

/-- Right-pad an integer sequence with zeros up to length m, as done by
parts1 += [0] * (max_length - len(parts1)). -/
def padded (p : List Int) (m : Nat) : List Int :=
  p ++ List.replicate (m - p.length) 0

/-- The comparison loop of version_ge over zip(parts1, parts2): return at
the first differing position, and true when the loop finishes. -/
def geLoop : List Int → List Int → Bool
  | p1 :: r1, p2 :: r2 =>
    if p1 > p2 then true
    else if p1 < p2 then false
    else geLoop r1 r2
  | _, _ => true

/-- Model of version_ge(version1, version2): Option.none models the
ValueError escaping when a segment of either argument is not a valid
integer literal. -/
def version_ge (version1 version2 : String) : Option Bool :=
  match parseParts version1, parseParts version2 with
  | some parts1, some parts2 =>
    let maxLength := max parts1.length parts2.length
    some (geLoop (padded parts1 maxLength) (padded parts2 maxLength))
  | _, _ => none

/-- A Python value appearing in the result dict of check_package_version:
None, a string, or a bool. -/
inductive PyVal where
  | none : PyVal
  | str : String → PyVal
  | bool : Bool → PyVal
deriving DecidableEq

/-- Inject an optional string into PyVal, sending Option.none to Python
None. -/
def optStrVal : Option String → PyVal
  | Option.none => PyVal.none
  | Option.some s => PyVal.str s

/-- Inject an optional bool into PyVal, sending Option.none to Python
None. -/
def optBoolVal : Option Bool → PyVal
  | Option.none => PyVal.none
  | Option.some b => PyVal.bool b

/-- The host Python environment as seen by check_package_version:
whether importlib.import_module and importlib.metadata.version succeed
for a package name, and the version string they report when they do. -/
structure PyEnv where
  importable : String → Bool
  version : String → String

/-- The dict literal returned by check_package_version, in source order. -/
def mkResult (package : String) (ver : Option String) (min_version : Option String)
    (al : Option Bool) : List (String × PyVal) :=
  [("language", PyVal.str "python"),
   ("package", PyVal.str package),
   ("version", optStrVal ver),
   ("min_version", optStrVal min_version),
   ("at_least_min_version", optBoolVal al)]

/-- Outcome of the try block of check_package_version: the resolved
version and satisfaction flag. The outer Option.none models a ValueError
from version_ge escaping (only ImportError is caught); the except branch
yields ver = None and at_least_min_version = None. -/
def tryImport (env : PyEnv) (package : String) (min_version : Option String) :
    Option (Option String × Option Bool) :=
  if env.importable package then
    let ver := env.version package
    match min_version with
    | Option.none => some (some ver, Option.none)
    | Option.some mv =>
      match version_ge ver mv with
      | Option.none => Option.none
      | Option.some b => some (some ver, some b)
  else
    some (Option.none, Option.none)

/-- Model of check_package_version(package, min_version) in environment
env; Option.none models an uncaught exception. -/
def check_package_version (env : PyEnv) (package : String) (min_version : Option String) :
    Option (List (String × PyVal)) :=
  match tryImport env package min_version with
  | Option.none => Option.none
  | Option.some (ver, al) => some (mkResult package ver min_version al)

/-! ## Helper lemmas -/

/-- Padding to m yields a list of length max (length p) m. -/
theorem padded_length (p : List Int) (m : Nat) : (padded p m).length = max p.length m := by
  simp only [padded, List.length_append, List.length_replicate]
  omega

/-- On equal-length lists the comparison loop decides the lexicographic
greater-or-equal relation: it returns true exactly when the first list is
not lexicographically smaller than the second. -/
theorem geLoop_eq_true_iff_not_lex :
    ∀ a b : List Int, a.length = b.length →
      (geLoop a b = true ↔ ¬ List.Lex (fun x y : Int => x < y) a b) := by
  intro a
  induction a with
  | nil =>
    intro b hb
    have hbnil : b = [] := by
      cases b with
      | nil => rfl
      | cons y ys => simp at hb
    subst hbnil
    simp only [geLoop, true_iff]
    intro hlex
    cases hlex
  | cons x xs ih =>
    intro b hb
    cases b with
    | nil => simp at hb
    | cons y ys =>
      have hlen : xs.length = ys.length := by
        simpa using hb
      simp only [geLoop]
      rcases lt_trichotomy x y with h | h | h
      · rw [if_neg (by omega), if_pos h]
        simp only [Bool.false_eq_true, false_iff, not_not]
        exact List.Lex.rel h
      · subst h
        rw [if_neg (by omega), if_neg (by omega)]
        rw [ih ys hlen]
        constructor
        · intro hnx hlex
          cases hlex with
          | cons h2 => exact hnx h2
          | rel h2 => exact absurd h2 (by omega)
        · intro hnl hlex
          exact hnl (List.Lex.cons hlex)
      · rw [if_pos h]
        simp only [true_iff]
        intro hlex
        cases hlex with
        | cons h2 =>
          exact absurd h (by omega)
        | rel h2 => exact absurd h2 (by omega)

/-- On equal-length lists the comparison loop is total: one direction
always returns true. -/
theorem geLoop_total :
    ∀ a b : List Int, a.length = b.length →
      geLoop a b = true ∨ geLoop b a = true := by
  intro a
  induction a with
  | nil =>
    intro b hb
    left
    cases b <;> rfl
  | cons x xs ih =>
    intro b hb
    cases b with
    | nil => simp at hb
    | cons y ys =>
      have hlen : xs.length = ys.length := by simpa using hb
      simp only [geLoop]
      rcases lt_trichotomy x y with h | h | h
      · right
        rw [if_pos h]
      · subst h
        rw [if_neg (by omega), if_neg (by omega), if_neg (by omega), if_neg (by omega)]
        exact ih ys hlen
      · left
        rw [if_pos h]

/-- On equal-length lists the comparison loop returns true in both
directions exactly when the lists are equal. -/
theorem geLoop_both_iff :
    ∀ a b : List Int, a.length = b.length →
      ((geLoop a b = true ∧ geLoop b a = true) ↔ a = b) := by
  intro a
  induction a with
  | nil =>
    intro b hb
    have hbnil : b = [] := by
      cases b with
      | nil => rfl
      | cons y ys => simp at hb
    subst hbnil
    simp [geLoop]
  | cons x xs ih =>
    intro b hb
    cases b with
    | nil => simp at hb
    | cons y ys =>
      have hlen : xs.length = ys.length := by simpa using hb
      simp only [geLoop]
      rcases lt_trichotomy x y with h | h | h
      · rw [if_neg (by omega), if_pos h]
        simp only [Bool.false_eq_true, false_and, false_iff]
        intro he
        rw [List.cons.injEq] at he
        exact absurd he.1 (by omega)
      · subst h
        rw [if_neg (by omega), if_neg (by omega), if_neg (by omega), if_neg (by omega)]
        rw [ih ys hlen]
        simp
      · rw [if_pos h, if_neg (by omega), if_pos (by omega)]
        simp only [Bool.false_eq_true, and_false, false_iff]
        intro he
        rw [List.cons.injEq] at he
        exact absurd he.1 (by omega)

/-- The loop returns true on two equal lists. -/
theorem geLoop_refl (a : List Int) : geLoop a a = true :=
  ((geLoop_both_iff a a rfl).mpr rfl).1

/-- Segment conversion fails exactly when some segment is rejected by
int(). -/
theorem intParts_eq_none_iff (l : List (List Char)) :
    intParts l = Option.none ↔ ∃ s ∈ l, pyInt? s = Option.none := by
  induction l with
  | nil => simp [intParts]
  | cons s rest ih =>
    simp only [intParts]
    cases hs : pyInt? s with
    | none =>
      simp only [true_iff]
      exact ⟨s, List.mem_cons_self s rest, hs⟩
    | some n =>
      cases hr : intParts rest with
      | none =>
        simp only [true_iff]
        obtain ⟨x, hx, hxn⟩ := ih.mp hr
        exact ⟨x, List.mem_cons_of_mem s hx, hxn⟩
      | some ns =>
        simp only [reduceCtorEq, false_iff, not_exists]
        rintro x ⟨hx, hxn⟩
        rcases List.mem_cons.mp hx with rfl | hx
        · rw [hs] at hxn
          exact absurd hxn (by simp)
        · exact absurd (ih.mpr ⟨x, hx, hxn⟩) (by rw [hr]; simp)

/-- When both arguments parse, version_ge returns the loop applied to the
two zero-padded integer sequences. -/
theorem version_ge_eq (a b : String) (p1 p2 : List Int)
    (h1 : parseParts a = some p1) (h2 : parseParts b = some p2) :
    version_ge a b =
      some (geLoop (padded p1 (max p1.length p2.length))
                   (padded p2 (max p1.length p2.length))) := by
  unfold version_ge
  rw [h1, h2]

/-- Appending to a list after a '+' separator does not change the part
before the first '+'. -/
theorem takeWhile_append_plus (l l2 : List Char) :
    (l ++ '+' :: l2).takeWhile (fun c => c != '+') =
      l.takeWhile (fun c => c != '+') := by
  induction l with
  | nil => simp
  | cons c cs ih =>
    by_cases hc : c = '+'
    · subst hc
      simp
    · simp only [List.cons_append, List.takeWhile_cons]
      rw [if_pos (by simpa using hc), if_pos (by simpa using hc), ih]

/-- Truncation at the first '+' ignores an appended local-build suffix. -/
theorem beforePlus_append (v1 xyz : String) :
    beforePlus ((v1 ++ "+" ++ xyz).toList) = beforePlus v1.toList := by
  have hdata : (v1 ++ "+" ++ xyz).toList = v1.toList ++ '+' :: xyz.toList := by
    simp [String.toList]
  rw [hdata]
  exact takeWhile_append_plus v1.toList xyz.toList

/-! ## Claim theorems -/

/-- C1: whenever both arguments parse, version_ge agrees with
lexicographic greater-or-equal on the zero-padded parsed integer
sequences, and in particular returns true when the padded sequences are
equal. -/
theorem version_ge_matches_lex (a b : String) (p1 p2 : List Int)
    (h1 : parseParts a = some p1) (h2 : parseParts b = some p2) :
    (version_ge a b = some true ↔
      ¬ List.Lex (fun x y : Int => x < y)
        (padded p1 (max p1.length p2.length))
        (padded p2 (max p1.length p2.length)))
    ∧ (padded p1 (max p1.length p2.length) = padded p2 (max p1.length p2.length) →
        version_ge a b = some true) := by
  have hv := version_ge_eq a b p1 p2 h1 h2
  have hlen : (padded p1 (max p1.length p2.length)).length
      = (padded p2 (max p1.length p2.length)).length := by
    rw [padded_length, padded_length]
    omega
  constructor
  · rw [hv]
    simp only [Option.some.injEq]
    exact geLoop_eq_true_iff_not_lex _ _ hlen
  · intro he
    rw [hv, he, geLoop_refl]

/-- Witness for C1 at a = "1.2", b = "1". -/
theorem version_ge_matches_lex_witness :
    (version_ge "1.2" "1" = some true ↔
      ¬ List.Lex (fun x y : Int => x < y)
        (padded [1, 2] (max (List.length ([1, 2] : List Int)) (List.length ([1] : List Int))))
        (padded [1] (max (List.length ([1, 2] : List Int)) (List.length ([1] : List Int)))))
    ∧ (padded [1, 2] (max (List.length ([1, 2] : List Int)) (List.length ([1] : List Int)))
        = padded [1] (max (List.length ([1, 2] : List Int)) (List.length ([1] : List Int))) →
        version_ge "1.2" "1" = some true) :=
  version_ge_matches_lex "1.2" "1" [1, 2] [1] (by decide) (by decide)

/-- C2: contrary to the claim (and to the test cases listed in the source
file's own comment block), the code returns true on both inputs: the
normalization turns "0.dev16" into "0.16", so the dev counter 16 is
compared against the second release component. -/
theorem version_ge_dev_shift_cases :
    version_ge "0.dev16+g83" "0.0.1" = some true ∧
    version_ge "0.3.dev16+g83" "0.3.1" = some true :=
  ⟨by decide, by decide⟩

/-- C3: a development pre-release at the same base version compares
greater-or-equal to the final release, and the final release does not
compare greater-or-equal to the pre-release. -/
theorem version_ge_dev_prerelease_cases :
    version_ge "0.3.1.dev16+g83" "0.3.1" = some true ∧
    version_ge "0.3.1" "0.3.1.dev16+g83" = some false :=
  ⟨by decide, by decide⟩

/-- C4: version_ge fails (the ValueError escapes; there is no other error
path in the model) exactly when some dot-separated segment remaining
after dropping the '+' suffix and normalizing the dev markers is not a
valid integer literal, for either argument. -/
theorem version_ge_none_iff (a b : String) :
    version_ge a b = Option.none ↔
      (∃ s ∈ split_version (beforePlus a.toList), pyInt? s = Option.none) ∨
      (∃ s ∈ split_version (beforePlus b.toList), pyInt? s = Option.none) := by
  rw [← intParts_eq_none_iff, ← intParts_eq_none_iff]
  unfold version_ge parseParts
  cases h1 : intParts (split_version (beforePlus a.toList)) <;>
    cases h2 : intParts (split_version (beforePlus b.toList)) <;> simp

/-- C7: appending a local-build suffix introduced by '+' to the first
argument never changes the result, because each input is truncated at its
first '+' before any other processing. -/
theorem version_ge_plus_invariant (v1 v2 xyz : String) :
    version_ge (v1 ++ "+" ++ xyz) v2 = version_ge v1 v2 := by
  unfold version_ge parseParts
  rw [beforePlus_append]

/-- C9: on parsed inputs the relation computed by version_ge is total,
and holds in both directions exactly when the padded parsed sequences are
equal. -/
theorem version_ge_total_order (a b : String) (p1 p2 : List Int)
    (h1 : parseParts a = some p1) (h2 : parseParts b = some p2) :
    (version_ge a b = some true ∨ version_ge b a = some true) ∧
      ((version_ge a b = some true ∧ version_ge b a = some true) ↔
        padded p1 (max p1.length p2.length) = padded p2 (max p1.length p2.length)) := by
  have hva := version_ge_eq a b p1 p2 h1 h2
  have hvb := version_ge_eq b a p2 p1 h2 h1
  rw [max_comm p2.length p1.length] at hvb
  have hlen : (padded p1 (max p1.length p2.length)).length
      = (padded p2 (max p1.length p2.length)).length := by
    rw [padded_length, padded_length]
    omega
  constructor
  · rcases geLoop_total _ _ hlen with h | h
    · left
      rw [hva, h]
    · right
      rw [hvb, h]
  · rw [hva, hvb]
    simp only [Option.some.injEq]
    exact geLoop_both_iff _ _ hlen

/-- Witness for C9 at a = "1", b = "2". -/
theorem version_ge_total_order_witness :
    (version_ge "1" "2" = some true ∨ version_ge "2" "1" = some true) ∧
      ((version_ge "1" "2" = some true ∧ version_ge "2" "1" = some true) ↔
        padded [1] (max (List.length ([1] : List Int)) (List.length ([2] : List Int)))
          = padded [2] (max (List.length ([1] : List Int)) (List.length ([2] : List Int)))) :=
  version_ge_total_order "1" "2" [1] [2] (by decide) (by decide)

/-- C5: when the import fails, check_package_version returns normally (the
ImportError is swallowed) with an absent version, an indeterminate
satisfaction flag, and the package and min_version arguments echoed. -/
theorem check_import_failure (env : PyEnv) (package : String) (mv : Option String)
    (h : env.importable package = false) :
    ∃ r, check_package_version env package mv = some r ∧
      r.lookup "version" = some PyVal.none ∧
      r.lookup "at_least_min_version" = some PyVal.none ∧
      r.lookup "package" = some (PyVal.str package) ∧
      r.lookup "min_version" = some (optStrVal mv) := by
  refine ⟨mkResult package Option.none mv Option.none, ?_, rfl, rfl, rfl, rfl⟩
  unfold check_package_version tryImport
  rw [h]
  rfl

/-- An environment in which no package is importable. -/
def absentEnv : PyEnv where
  importable := fun _ => false
  version := fun _ => ""

/-- Witness for C5 at package "numpy" with min_version "1.0" in an
environment where the import fails. -/
theorem check_import_failure_witness :
    ∃ r, check_package_version absentEnv "numpy" (some "1.0") = some r ∧
      r.lookup "version" = some PyVal.none ∧
      r.lookup "at_least_min_version" = some PyVal.none ∧
      r.lookup "package" = some (PyVal.str "numpy") ∧
      r.lookup "min_version" = some (optStrVal (some "1.0")) :=
  check_import_failure absentEnv "numpy" (some "1.0") rfl

/-- C6: when the import succeeds, an absent min_version yields an
indeterminate satisfaction flag next to the resolved version, and a
present min_version yields exactly the value version_ge returns on the
resolved version and the minimum. -/
theorem check_import_success (env : PyEnv) (package : String)
    (h : env.importable package = true) :
    (∃ r, check_package_version env package Option.none = some r ∧
      r.lookup "version" = some (PyVal.str (env.version package)) ∧
      r.lookup "at_least_min_version" = some PyVal.none) ∧
    (∀ mv b, version_ge (env.version package) mv = some b →
      ∃ r, check_package_version env package (some mv) = some r ∧
        r.lookup "version" = some (PyVal.str (env.version package)) ∧
        r.lookup "at_least_min_version" = some (PyVal.bool b)) := by
  constructor
  · refine ⟨mkResult package (some (env.version package)) Option.none Option.none,
      ?_, rfl, rfl⟩
    unfold check_package_version tryImport
    rw [h]
    rfl
  · intro mv b hb
    refine ⟨mkResult package (some (env.version package)) (some mv) (some b),
      ?_, rfl, rfl⟩
    unfold check_package_version tryImport
    rw [h]
    simp only [if_true]
    rw [hb]

/-- An environment in which every package is importable at version 1.0. -/
def richEnv : PyEnv where
  importable := fun _ => true
  version := fun _ => "1.0"

/-- Witness for C6 at package "shiny" in an environment resolving version
"1.0", exercised with min_version "0.5". -/
theorem check_import_success_witness :
    ((∃ r, check_package_version richEnv "shiny" Option.none = some r ∧
      r.lookup "version" = some (PyVal.str (richEnv.version "shiny")) ∧
      r.lookup "at_least_min_version" = some PyVal.none) ∧
    (∀ mv b, version_ge (richEnv.version "shiny") mv = some b →
      ∃ r, check_package_version richEnv "shiny" (some mv) = some r ∧
        r.lookup "version" = some (PyVal.str (richEnv.version "shiny")) ∧
        r.lookup "at_least_min_version" = some (PyVal.bool b))) ∧
    version_ge (richEnv.version "shiny") "0.5" = some true :=
  ⟨check_import_success richEnv "shiny" rfl, by decide⟩

/-- C8: every returned mapping has exactly the five keys in source order,
the constant language tag "python", and the package and min_version
arguments echoed, on the success path and the import-failure path alike. -/
theorem check_result_keys (env : PyEnv) (package : String) (mv : Option String)
    (r : List (String × PyVal)) (h : check_package_version env package mv = some r) :
    r.map Prod.fst =
      ["language", "package", "version", "min_version", "at_least_min_version"] ∧
    r.lookup "language" = some (PyVal.str "python") ∧
    r.lookup "package" = some (PyVal.str package) ∧
    r.lookup "min_version" = some (optStrVal mv) := by
  unfold check_package_version at h
  cases ht : tryImport env package mv with
  | none =>
    rw [ht] at h
    exact absurd h (by simp)
  | some va =>
    rw [ht] at h
    obtain ⟨ver, al⟩ := va
    simp only [Option.some.injEq] at h
    subst h
    exact ⟨rfl, rfl, rfl, rfl⟩

/-- Witness for C8 at the import-failure result of absentEnv. -/
theorem check_result_keys_witness :
    (mkResult "numpy" Option.none (some "1.0") Option.none).map Prod.fst =
      ["language", "package", "version", "min_version", "at_least_min_version"] ∧
    (mkResult "numpy" Option.none (some "1.0") Option.none).lookup "language" =
      some (PyVal.str "python") ∧
    (mkResult "numpy" Option.none (some "1.0") Option.none).lookup "package" =
      some (PyVal.str "numpy") ∧
    (mkResult "numpy" Option.none (some "1.0") Option.none).lookup "min_version" =
      some (optStrVal (some "1.0")) :=
  check_result_keys absentEnv "numpy" (some "1.0")
    (mkResult "numpy" Option.none (some "1.0") Option.none) rfl

/-! ## Trailing dev marker lemmas (for C10) -/

/-- Replacing ".dev" by "." keeps a trailing dev marker or turns it into a
trailing dot, and keeps a trailing dot. -/
theorem replaceDotDev_marker :
    ∀ l : List Char, (['d', 'e', 'v'] <:+ l ∨ ['.'] <:+ l) →
      (['d', 'e', 'v'] <:+ replaceDotDev l ∨ ['.'] <:+ replaceDotDev l) := by
  intro l
  induction l using replaceDotDev.induct with
  | case1 =>
    rintro (hs | hs) <;> (rw [List.suffix_nil] at hs; simp at hs)
  | case2 c =>
    rintro (hs | hs)
    · rcases List.suffix_cons_iff.mp hs with heq | hs
      · exact absurd heq (by simp)
      · rw [List.suffix_nil] at hs
        simp at hs
    · rcases List.suffix_cons_iff.mp hs with heq | hs
      · simp only [List.cons.injEq] at heq
        obtain ⟨hc, -⟩ := heq
        subst hc
        right
        exact ⟨[], rfl⟩
      · rw [List.suffix_nil] at hs
        simp at hs
  | case3 c1 c2 =>
    rintro (hs | hs)
    · rcases List.suffix_cons_iff.mp hs with heq | hs
      · exact absurd heq (by simp)
      rcases List.suffix_cons_iff.mp hs with heq | hs
      · exact absurd heq (by simp)
      rw [List.suffix_nil] at hs
      simp at hs
    · rcases List.suffix_cons_iff.mp hs with heq | hs
      · exact absurd heq (by simp)
      rcases List.suffix_cons_iff.mp hs with heq | hs
      · simp only [List.cons.injEq] at heq
        obtain ⟨hc, -⟩ := heq
        subst hc
        right
        exact ⟨[c1], rfl⟩
      rw [List.suffix_nil] at hs
      simp at hs
  | case4 c1 c2 c3 =>
    rintro (hs | hs)
    · rcases List.suffix_cons_iff.mp hs with heq | hs
      · simp only [List.cons.injEq] at heq
        obtain ⟨h1, h2, h3, -⟩ := heq
        subst h1
        subst h2
        subst h3
        left
        exact ⟨[], rfl⟩
      rcases List.suffix_cons_iff.mp hs with heq | hs
      · exact absurd heq (by simp)
      rcases List.suffix_cons_iff.mp hs with heq | hs
      · exact absurd heq (by simp)
      rw [List.suffix_nil] at hs
      simp at hs
    · rcases List.suffix_cons_iff.mp hs with heq | hs
      · exact absurd heq (by simp)
      rcases List.suffix_cons_iff.mp hs with heq | hs
      · exact absurd heq (by simp)
      rcases List.suffix_cons_iff.mp hs with heq | hs
      · simp only [List.cons.injEq] at heq
        obtain ⟨hc, -⟩ := heq
        subst hc
        right
        exact ⟨[c1, c2], rfl⟩
      rw [List.suffix_nil] at hs
      simp at hs
  | case5 c1 c2 c3 c4 rest h ih =>
    obtain ⟨rfl, rfl, rfl, rfl⟩ := h
    have hr : replaceDotDev ('.' :: 'd' :: 'e' :: 'v' :: rest) = '.' :: replaceDotDev rest := by
      simp [replaceDotDev]
    rw [hr]
    rintro (hs | hs)
    · rcases List.suffix_cons_iff.mp hs with heq | hs
      · exact absurd heq (by simp)
      rcases List.suffix_cons_iff.mp hs with heq | hs
      · simp only [List.cons.injEq] at heq
        obtain ⟨-, -, -, hrest⟩ := heq
        subst hrest
        right
        exact ⟨[], rfl⟩
      rcases List.suffix_cons_iff.mp hs with heq | hs
      · exact absurd heq (by simp)
      rcases List.suffix_cons_iff.mp hs with heq | hs
      · exact absurd heq (by simp)
      rcases ih (Or.inl hs) with h2 | h2
      · left
        exact h2.trans (List.suffix_cons '.' (replaceDotDev rest))
      · right
        exact h2.trans (List.suffix_cons '.' (replaceDotDev rest))
    · rcases List.suffix_cons_iff.mp hs with heq | hs
      · exact absurd heq (by simp)
      rcases List.suffix_cons_iff.mp hs with heq | hs
      · exact absurd heq (by simp)
      rcases List.suffix_cons_iff.mp hs with heq | hs
      · exact absurd heq (by simp)
      rcases List.suffix_cons_iff.mp hs with heq | hs
      · exact absurd heq (by simp)
      rcases ih (Or.inr hs) with h2 | h2
      · left
        exact h2.trans (List.suffix_cons '.' (replaceDotDev rest))
      · right
        exact h2.trans (List.suffix_cons '.' (replaceDotDev rest))
  | case6 c1 c2 c3 c4 rest h ih =>
    have hr : replaceDotDev (c1 :: c2 :: c3 :: c4 :: rest)
        = c1 :: replaceDotDev (c2 :: c3 :: c4 :: rest) := by
      simp only [replaceDotDev]
      rw [if_neg h]
    rw [hr]
    rintro (hs | hs)
    · rcases List.suffix_cons_iff.mp hs with heq | hs
      · exact absurd heq (by simp)
      rcases ih (Or.inl hs) with h2 | h2
      · left
        exact h2.trans (List.suffix_cons c1 _)
      · right
        exact h2.trans (List.suffix_cons c1 _)
    · rcases List.suffix_cons_iff.mp hs with heq | hs
      · exact absurd heq (by simp)
      rcases ih (Or.inr hs) with h2 | h2
      · left
        exact h2.trans (List.suffix_cons c1 _)
      · right
        exact h2.trans (List.suffix_cons c1 _)

/-- Replacing "dev" by "." turns a trailing dev marker into a trailing
dot, and keeps a trailing dot. -/
theorem replaceDev_dot :
    ∀ l : List Char, (['d', 'e', 'v'] <:+ l ∨ ['.'] <:+ l) →
      ['.'] <:+ replaceDev l := by
  intro l
  induction l using replaceDev.induct with
  | case1 =>
    rintro (hs | hs) <;> (rw [List.suffix_nil] at hs; simp at hs)
  | case2 c =>
    rintro (hs | hs)
    · rcases List.suffix_cons_iff.mp hs with heq | hs
      · exact absurd heq (by simp)
      · rw [List.suffix_nil] at hs
        simp at hs
    · rcases List.suffix_cons_iff.mp hs with heq | hs
      · simp only [List.cons.injEq] at heq
        obtain ⟨hc, -⟩ := heq
        subst hc
        exact ⟨[], rfl⟩
      · rw [List.suffix_nil] at hs
        simp at hs
  | case3 c1 c2 =>
    rintro (hs | hs)
    · rcases List.suffix_cons_iff.mp hs with heq | hs
      · exact absurd heq (by simp)
      rcases List.suffix_cons_iff.mp hs with heq | hs
      · exact absurd heq (by simp)
      rw [List.suffix_nil] at hs
      simp at hs
    · rcases List.suffix_cons_iff.mp hs with heq | hs
      · exact absurd heq (by simp)
      rcases List.suffix_cons_iff.mp hs with heq | hs
      · simp only [List.cons.injEq] at heq
        obtain ⟨hc, -⟩ := heq
        subst hc
        exact ⟨[c1], rfl⟩
      rw [List.suffix_nil] at hs
      simp at hs
  | case4 c1 c2 c3 rest h ih =>
    obtain ⟨rfl, rfl, rfl⟩ := h
    have hr : replaceDev ('d' :: 'e' :: 'v' :: rest) = '.' :: replaceDev rest := by
      simp [replaceDev]
    rw [hr]
    rintro (hs | hs)
    · rcases List.suffix_cons_iff.mp hs with heq | hs
      · simp only [List.cons.injEq] at heq
        have hrest : rest = [] := by simpa using heq
        subst hrest
        exact ⟨[], rfl⟩
      rcases List.suffix_cons_iff.mp hs with heq | hs
      · exact absurd heq (by simp)
      rcases List.suffix_cons_iff.mp hs with heq | hs
      · exact absurd heq (by simp)
      exact (ih (Or.inl hs)).trans (List.suffix_cons '.' (replaceDev rest))
    · rcases List.suffix_cons_iff.mp hs with heq | hs
      · exact absurd heq (by simp)
      rcases List.suffix_cons_iff.mp hs with heq | hs
      · exact absurd heq (by simp)
      rcases List.suffix_cons_iff.mp hs with heq | hs
      · exact absurd heq (by simp)
      exact (ih (Or.inr hs)).trans (List.suffix_cons '.' (replaceDev rest))
  | case5 c1 c2 c3 rest h ih =>
    have hr : replaceDev (c1 :: c2 :: c3 :: rest)
        = c1 :: replaceDev (c2 :: c3 :: rest) := by
      simp only [replaceDev]
      rw [if_neg h]
    rw [hr]
    rintro (hs | hs)
    · rcases List.suffix_cons_iff.mp hs with heq | hs
      · simp only [List.cons.injEq] at heq
        obtain ⟨h1, h2, h3, -⟩ := heq
        exact absurd ⟨h1.symm, h2.symm, h3.symm⟩ h
      · exact (ih (Or.inl hs)).trans (List.suffix_cons c1 _)
    · rcases List.suffix_cons_iff.mp hs with heq | hs
      · exact absurd heq (by simp)
      · exact (ih (Or.inr hs)).trans (List.suffix_cons c1 _)

/-- Splitting on dots never yields an empty segment list. -/
theorem splitOnDot_ne_nil (l : List Char) : splitOnDot l ≠ [] := by
  cases l with
  | nil => simp [splitOnDot]
  | cons c rest =>
    simp only [splitOnDot]
    by_cases hc : c = '.'
    · rw [if_pos hc]
      simp
    · rw [if_neg hc]
      cases splitOnDot rest <;> simp

/-- Only the empty string splits to a single empty segment. -/
theorem splitOnDot_eq_single (l : List Char) (h : splitOnDot l = [[]]) : l = [] := by
  cases l with
  | nil => rfl
  | cons c rest =>
    exfalso
    simp only [splitOnDot] at h
    by_cases hc : c = '.'
    · rw [if_pos hc] at h
      simp only [List.cons.injEq] at h
      exact splitOnDot_ne_nil rest h.2
    · rw [if_neg hc] at h
      cases hs : splitOnDot rest with
      | nil => exact splitOnDot_ne_nil rest hs
      | cons g gs =>
        rw [hs] at h
        simp at h

/-- A string ending in a dot splits with an empty last segment. -/
theorem splitOnDot_getLast (l : List Char) (h : ['.'] <:+ l) :
    (splitOnDot l).getLast? = some [] := by
  induction l with
  | nil =>
    rw [List.suffix_nil] at h
    simp at h
  | cons c rest ih =>
    rcases List.suffix_cons_iff.mp h with heq | hsuf
    · simp only [List.cons.injEq] at heq
      obtain ⟨hc, hrest⟩ := heq
      subst hc
      subst hrest
      decide
    · have hr := ih hsuf
      by_cases hc : c = '.'
      · subst hc
        have hs : splitOnDot ('.' :: rest) = [] :: splitOnDot rest := by
          simp [splitOnDot]
        rw [hs]
        cases hsp : splitOnDot rest with
        | nil => exact absurd hsp (splitOnDot_ne_nil rest)
        | cons g gs =>
          rw [hsp] at hr
          rw [List.getLast?_cons_cons]
          exact hr
      · cases hsp : splitOnDot rest with
        | nil => exact absurd hsp (splitOnDot_ne_nil rest)
        | cons g gs =>
          have hs : splitOnDot (c :: rest) = (c :: g) :: gs := by
            simp only [splitOnDot, hsp]
            rw [if_neg hc]
          rw [hsp] at hr
          rw [hs]
          cases gs with
          | nil =>
            exfalso
            simp only [List.getLast?_singleton, Option.some.injEq] at hr
            subst hr
            have hnil := splitOnDot_eq_single rest hsp
            subst hnil
            rw [List.suffix_nil] at hsuf
            simp at hsuf
          | cons g2 gs2 =>
            rw [List.getLast?_cons_cons] at hr ⊢
            exact hr

/-- The last element reported by getLast? is a member of the list. -/
theorem mem_of_getLast?_eq (L : List (List Char)) (x : List Char)
    (h : L.getLast? = some x) : x ∈ L := by
  induction L with
  | nil => simp at h
  | cons a l ih =>
    cases l with
    | nil =>
      simp at h
      simp [h]
    | cons b l2 =>
      rw [List.getLast?_cons_cons] at h
      exact List.mem_cons_of_mem a (ih h)

/-- C10: a version string whose part before the first '+' ends in a bare
dev marker (such as "0.3.1.dev" or "0.3.1dev") makes version_ge fail with
the numeric-conversion error, because normalization leaves an empty
trailing segment that int() rejects. -/
theorem version_ge_trailing_dev_error (v w : String)
    (h : ['d', 'e', 'v'] <:+ beforePlus v.toList) :
    version_ge v w = Option.none := by
  have h1 := replaceDotDev_marker (beforePlus v.toList) (Or.inl h)
  have h2 := replaceDev_dot (replaceDotDev (beforePlus v.toList)) h1
  have h3 := splitOnDot_getLast _ h2
  have h4 : ([] : List Char) ∈ split_version (beforePlus v.toList) :=
    mem_of_getLast?_eq _ _ h3
  have h5 : parseParts v = Option.none := by
    unfold parseParts
    exact (intParts_eq_none_iff _).mpr ⟨[], h4, rfl⟩
  unfold version_ge
  rw [h5]

/-- Witness for C10 at "0.3.1.dev" versus "0.3.1". -/
theorem version_ge_trailing_dev_error_witness :
    (['d', 'e', 'v'] <:+ beforePlus "0.3.1.dev".toList) ∧
      version_ge "0.3.1.dev" "0.3.1" = Option.none :=
  ⟨by decide, version_ge_trailing_dev_error "0.3.1.dev" "0.3.1" (by decide)⟩

end ShinyVersion
